import Mathlib

/-!
Verification of the Mini Cactpot Calculator engine.

The JavaScript engine is shallowly embedded:
* board cells and line slots are `Option ℤ` (a revealed digit or `null`),
* JavaScript numbers produced by the expected-value recursion are embedded
  as exact rationals `ℚ` (every division the code performs is modelled by
  exact rational division),
* the `undefined` value that the `cactpot-calc.js` copy of `gilValue` can
  return (its lookup has no default) is embedded as `Option`.

Embedded functions (from the game logic module, `src/unnamed/part_000`):
`gilValue`, `calculateOptionEV`, `calculateBestOptions`, `calculateCellEV`,
`getPositionPriority`, `findBestCellsToReveal`; from `src/validation.js`:
`Validation.validateBoard`; from `src/cactpot-calc.js`: `gilValueCalc` and
`calculateOptionEVCalc` (the duplicated copies of the engine functions).
-/

/-- The literal payout object `valueToGil` shared by every copy of the code:
a partial lookup from a line total to its MGP reward, `none` when the key is
absent (JavaScript `valueToGil[total]` being `undefined`). -/
def valueToGil (total : ℤ) : Option ℤ :=
  if total = 6 then some 10000
  else if total = 7 then some 36
  else if total = 8 then some 720
  else if total = 9 then some 360
  else if total = 10 then some 80
  else if total = 11 then some 252
  else if total = 12 then some 108
  else if total = 13 then some 72
  else if total = 14 then some 54
  else if total = 15 then some 180
  else if total = 16 then some 72
  else if total = 17 then some 180
  else if total = 18 then some 119
  else if total = 19 then some 36
  else if total = 20 then some 306
  else if total = 21 then some 1080
  else if total = 22 then some 144
  else if total = 23 then some 1800
  else if total = 24 then some 3600
  else none

/-- `gilValue` of the game logic module (`src/unnamed/part_000`):
`return valueToGil[total] || 0` — the table value, defaulting to `0`.
(All table values are nonzero, so `|| 0` is exactly the `none` default.) -/
def gilValue (total : ℤ) : ℤ :=
  (valueToGil total).getD 0

/-- `gilValue` of `src/cactpot-calc.js`: `return valueToGil[total]` with no
default, so totals outside the table yield `undefined`, embedded as `none`. -/
def gilValueCalc (total : ℤ) : Option ℤ :=
  valueToGil total

/-- `newOptionValues[nullIndex] = number`: the line values with the first
`null` slot (the slot at `optionValues.indexOf(null)`) replaced by `n`. -/
def fillFirstNone : List (Option ℤ) → ℤ → List (Option ℤ)
  | [], _ => []
  | none :: rest, n => some n :: rest
  | some v :: rest, n => some v :: fillFirstNone rest n

/-- One entry per loop iteration `i` of `calculateOptionEV`: the element
`availableNumbers[i]` paired with
`availableNumbers.filter((_, index) => index !== i)`. -/
def picks : List ℤ → List (ℤ × List ℤ)
  | [] => []
  | a :: as => (a, as) :: (picks as).map (fun p => (p.1, a :: p.2))

/-- `optionValues.reduce((sum, val) => sum + val, 0)`, totalling a line.
Unrevealed slots count as `0`; the code only sums fully revealed lines,
where this is the plain sum of the three values. -/
def lineSum (vals : List (Option ℤ)) : ℤ :=
  (vals.map (fun v => v.getD 0)).sum

/-- The recursion of `calculateOptionEV`, structured on the number of `null`
slots (which the code decreases by one at every recursive call): with no
nulls left, the payout of the total; otherwise the average, over every way
of picking one available number for the first `null` slot, of the expected
value computed recursively with that number removed. -/
def evAux : ℕ → List (Option ℤ) → List ℤ → ℚ
  | 0, vals, _ => (gilValue (lineSum vals) : ℚ)
  | k+1, vals, avail =>
    ((picks avail).map (fun p => evAux k (fillFirstNone vals p.1) p.2)).sum
      / (avail.length : ℚ)

/-- `calculateOptionEV` of the game logic module (`src/unnamed/part_000`). -/
def calculateOptionEV (optionValues : List (Option ℤ)) (availableNumbers : List ℤ) : ℚ :=
  evAux (optionValues.count none) optionValues availableNumbers

theorem count_none_fillFirstNone (vals : List (Option ℤ)) (n : ℤ) (h : none ∈ vals) :
    (fillFirstNone vals n).count none + 1 = vals.count none := by
  induction vals with
  | nil => cases h
  | cons a t ih =>
    cases a with
    | none => simp [fillFirstNone, List.count_cons]
    | some v =>
      have ht : none ∈ t := by simpa using h
      simp [fillFirstNone, List.count_cons, ← ih ht]

theorem lineSum_fillFirstNone (vals : List (Option ℤ)) (n : ℤ) (h : none ∈ vals) :
    lineSum (fillFirstNone vals n) = lineSum vals + n := by
  induction vals with
  | nil => cases h
  | cons a t ih =>
    cases a with
    | none => simp [fillFirstNone, lineSum]; ring
    | some v =>
      have ht : none ∈ t := by simpa using h
      simp only [fillFirstNone, lineSum, List.map_cons, List.sum_cons] at ih ⊢
      rw [ih ht]; ring

/-- The defining recurrence of `calculateOptionEV`, exactly as the JavaScript
states it: if `optionValues` has no `null` (`nullCount === 0`), the payout of
the summed values; otherwise the sum, over each available number substituted
into the first `null` slot with that number removed from the available list,
of the recursive expected values, divided by the iteration count. -/
theorem calculateOptionEV_eq (vals : List (Option ℤ)) (avail : List ℤ) :
    calculateOptionEV vals avail =
      if vals.count none = 0 then (gilValue (lineSum vals) : ℚ)
      else ((picks avail).map
          (fun p => calculateOptionEV (fillFirstNone vals p.1) p.2)).sum
        / (avail.length : ℚ) := by
  unfold calculateOptionEV
  rcases h : vals.count none with _ | k
  · simp [evAux]
  · have hmem : none ∈ vals := by
      have : 0 < vals.count none := by omega
      exact List.count_pos_iff.mp this
    simp only [evAux, if_neg (by omega : ¬ k + 1 = 0)]
    congr 1
    refine congrArg List.sum (List.map_congr_left ?_)
    intro p _
    have hc : (fillFirstNone vals p.1).count none + 1 = vals.count none :=
      count_none_fillFirstNone vals p.1 hmem
    have hk : (fillFirstNone vals p.1).count none = k := by omega
    rw [hk]

/-- Abstraction of the recursion: the expected value only depends on the
number of unrevealed slots and the running total of revealed values. -/
def evSum : ℕ → ℤ → List ℤ → ℚ
  | 0, s, _ => (gilValue s : ℚ)
  | k+1, s, avail =>
    ((picks avail).map (fun p => evSum k (s + p.1) p.2)).sum / (avail.length : ℚ)

theorem evAux_eq_evSum :
    ∀ (k : ℕ) (vals : List (Option ℤ)) (avail : List ℤ), vals.count none = k →
      evAux k vals avail = evSum k (lineSum vals) avail := by
  intro k
  induction k with
  | zero => intro vals avail _; rfl
  | succ k ih =>
    intro vals avail h
    have hmem : none ∈ vals := List.count_pos_iff.mp (by omega)
    simp only [evAux, evSum]
    congr 1
    refine congrArg List.sum (List.map_congr_left ?_)
    intro p _
    have hc : (fillFirstNone vals p.1).count none + 1 = vals.count none :=
      count_none_fillFirstNone vals p.1 hmem
    rw [ih (fillFirstNone vals p.1) p.2 (by omega),
      lineSum_fillFirstNone vals p.1 hmem]

/-- Spec-side notion (section 4.2 / glossary of the specification): the list
of all ordered assignments of `k` values drawn without replacement from the
available list. `picks` removes one occurrence by position, so for a
duplicate-free available list these are exactly the ordered selections of
`k` distinct digits. -/
def kperms : ℕ → List ℤ → List (List ℤ)
  | 0, _ => [[]]
  | k+1, l => (picks l).flatMap (fun p => (kperms k p.2).map (fun t => p.1 :: t))

/-- Spec-side notion: fill the unrevealed slots of a line, in order, with the
digits of the assignment `t` (first digit into the first `null` slot, and so
on). -/
def fillNones (vals : List (Option ℤ)) (t : List ℤ) : List (Option ℤ) :=
  t.foldl fillFirstNone vals

/-- The falling factorial: the number of ordered assignments of `k` values
drawn without replacement from a list of length `n`. -/
def numPerms : ℕ → ℕ → ℕ
  | 0, _ => 1
  | k+1, n => n * numPerms k (n - 1)

theorem picks_length (l : List ℤ) : (picks l).length = l.length := by
  induction l with
  | nil => rfl
  | cons a as ih => simp [picks, ih]

theorem length_of_mem_picks (l : List ℤ) :
    ∀ p ∈ picks l, p.2.length + 1 = l.length := by
  induction l with
  | nil => intro p hp; cases hp
  | cons a as ih =>
    intro p hp
    simp only [picks, List.mem_cons] at hp
    rcases hp with rfl | hp
    · simp
    · rcases List.mem_map.mp hp with ⟨q, hq, rfl⟩
      have := ih q hq
      simp only [List.length_cons]
      omega

theorem kperms_length : ∀ (k : ℕ) (l : List ℤ), (kperms k l).length = numPerms k l.length := by
  intro k
  induction k with
  | zero => intro l; rfl
  | succ k ih =>
    intro l
    simp only [kperms, numPerms, List.length_flatMap, Function.comp_def, List.length_map]
    have hmap : (picks l).map (fun p => (kperms k p.2).length) =
        (picks l).map (fun _ => numPerms k (l.length - 1)) := by
      apply List.map_congr_left
      intro p hp
      rw [ih p.2]
      have := length_of_mem_picks l p hp
      congr 1
      omega
    rw [hmap, List.map_const', List.sum_replicate, smul_eq_mul, picks_length, Nat.mul_comm]

theorem length_of_mem_kperms :
    ∀ (k : ℕ) (l : List ℤ) (t : List ℤ), t ∈ kperms k l → t.length = k := by
  intro k
  induction k with
  | zero => intro l t ht; simp only [kperms, List.mem_singleton] at ht; simp [ht]
  | succ k ih =>
    intro l t ht
    rcases List.mem_flatMap.mp ht with ⟨p, _, hmem⟩
    rcases List.mem_map.mp hmem with ⟨q, hq, rfl⟩
    simp [ih p.2 q hq]

theorem cons_mem_kperms (k : ℕ) (l : List ℤ) (p : ℤ × List ℤ) (t : List ℤ)
    (hp : p ∈ picks l) (ht : t ∈ kperms k p.2) : p.1 :: t ∈ kperms (k+1) l :=
  List.mem_flatMap.mpr ⟨p, hp, List.mem_map.mpr ⟨t, ht, rfl⟩⟩

theorem sum_flatMap {α β : Type} [AddCommMonoid β] (l : List α) (f : α → List β) :
    (l.flatMap f).sum = (l.map (fun a => (f a).sum)).sum := by
  induction l with
  | nil => rfl
  | cons a as ih => simp [ih]

theorem sum_map_div (l : List α) (f : α → ℚ) (c : ℚ) :
    (l.map (fun a => f a / c)).sum = (l.map f).sum / c := by
  induction l with
  | nil => simp
  | cons a as ih => simp [ih, add_div]

/-- The recursion averaged over one slot at a time equals the flat uniform
average over every ordered assignment of `k` values into the `k` slots. -/
theorem evSum_eq_kperms_average :
    ∀ (k : ℕ) (s : ℤ) (l : List ℤ),
      evSum k s l =
        ((kperms k l).map (fun t => (gilValue (s + t.sum) : ℚ))).sum
          / ((kperms k l).length : ℚ) := by
  intro k
  induction k with
  | zero => intro s l; simp [evSum, kperms]
  | succ k ih =>
    intro s l
    have hconst : ∀ p ∈ picks l, ((kperms k p.2).length : ℚ) = (numPerms k (l.length - 1) : ℚ) := by
      intro p hp
      rw [kperms_length]
      have := length_of_mem_picks l p hp
      congr 2
      omega
    have hstep : (picks l).map (fun p => evSum k (s + p.1) p.2) =
        (picks l).map (fun p =>
          (((kperms k p.2).map (fun t => (gilValue (s + p.1 + t.sum) : ℚ))).sum
            / (numPerms k (l.length - 1) : ℚ))) := by
      apply List.map_congr_left
      intro p hp
      rw [ih (s + p.1) p.2, hconst p hp]
    have hnum : ((kperms (k+1) l).map (fun t => (gilValue (s + t.sum) : ℚ))).sum =
        ((picks l).map (fun p =>
          ((kperms k p.2).map (fun t => (gilValue (s + p.1 + t.sum) : ℚ))).sum)).sum := by
      simp only [kperms, List.map_flatMap, sum_flatMap]
      refine congrArg List.sum (List.map_congr_left ?_)
      intro p _
      simp only [List.map_map]
      refine congrArg List.sum (List.map_congr_left ?_)
      intro t _
      simp [Function.comp, add_assoc]
    rw [evSum, hstep, sum_map_div, div_div, hnum, kperms_length]
    have hden : ((numPerms (k+1) l.length : ℕ) : ℚ) =
        (numPerms k (l.length - 1) : ℚ) * (l.length : ℚ) := by
      simp only [numPerms]
      push_cast
      ring
    rw [hden]

theorem fillNones_nil (vals : List (Option ℤ)) : fillNones vals [] = vals := rfl

theorem fillNones_cons (vals : List (Option ℤ)) (a : ℤ) (t : List ℤ) :
    fillNones vals (a :: t) = fillNones (fillFirstNone vals a) t := rfl

theorem lineSum_fillNones :
    ∀ (t : List ℤ) (vals : List (Option ℤ)), t.length ≤ vals.count none →
      lineSum (fillNones vals t) = lineSum vals + t.sum := by
  intro t
  induction t with
  | nil => intro vals _; simp [fillNones_nil]
  | cons a t ih =>
    intro vals h
    have hmem : none ∈ vals := by
      apply List.count_pos_iff.mp
      simp only [List.length_cons] at h
      omega
    have hc : (fillFirstNone vals a).count none + 1 = vals.count none :=
      count_none_fillFirstNone vals a hmem
    rw [fillNones_cons, ih (fillFirstNone vals a) (by simp at h; omega),
      lineSum_fillFirstNone vals a hmem]
    simp [add_assoc]

/-- The fixed Line Geometry: the 8 scoring lines, as triples of board
positions, in the order the code lists them. -/
def options : List (List ℕ) :=
  [[0, 1, 2], [3, 4, 5], [6, 7, 8],
   [0, 3, 6], [1, 4, 7], [2, 5, 8],
   [0, 4, 8], [2, 4, 6]]

/-- The human-readable line names, in the same order. -/
def optionNames : List String :=
  ["Row 1", "Row 2", "Row 3",
   "Column 1", "Column 2", "Column 3",
   "Diagonal (Top-Left)", "Diagonal (Top-Right)"]

/-- `options.map(line => line.map(i => board[i]))`. -/
def lineValuesOf (board : List (Option ℤ)) : List (List (Option ℤ)) :=
  options.map (fun line => line.map (fun i => board.getD i none))

/-- `board.filter(element => element !== null)`. -/
def takenNumbers (board : List (Option ℤ)) : List ℤ :=
  board.filterMap id

def allNumbers : List ℤ := [1, 2, 3, 4, 5, 6, 7, 8, 9]

/-- `allNumbers.filter(item => !takenNumbers.includes(item))`. -/
def availableNumbersOf (board : List (Option ℤ)) : List ℤ :=
  allNumbers.filter (fun n => decide (¬ n ∈ takenNumbers board))

/-- The 8 per-line expected values of a board, in line order. -/
def lineEVsOf (board : List (Option ℤ)) : List ℚ :=
  (lineValuesOf board).map (fun o => calculateOptionEV o (availableNumbersOf board))

/-- `Math.max(...l)` for the nonempty lists the code applies it to. -/
def listMax : List ℚ → ℚ
  | [] => 0
  | a :: as => as.foldl max a

structure BestOptionsResult where
  bestOptions : List (List ℕ)
  maxEV : ℚ
deriving DecidableEq

/-- `calculateBestOptions` of the game logic module: the 8 line EVs against
the board's available numbers, their exact maximum, and the lines whose EV
equals that maximum, in line order. -/
def calculateBestOptions (board : List (Option ℤ)) : BestOptionsResult :=
  let evs := lineEVsOf board
  let maxEV := listMax evs
  { bestOptions :=
      ((evs.enum.filter (fun p => decide (p.2 = maxEV))).map
        (fun p => options.getD p.1 [])),
    maxEV := maxEV }

/-- The `cellLines` object of `calculateCellEV`: the indices of the lines
each cell participates in. -/
def cellLines : ℕ → List ℕ
  | 0 => [0, 3, 6]
  | 1 => [0, 4]
  | 2 => [0, 5, 7]
  | 3 => [1, 3]
  | 4 => [1, 4, 6, 7]
  | 5 => [1, 5]
  | 6 => [2, 3, 7]
  | 7 => [2, 4]
  | 8 => [2, 5, 6]
  | _ => []

/-- `calculateCellEV` of the game logic module: `0` for an already revealed
cell; otherwise the sum of the EVs of the lines through the cell minus the
baseline `calculateBestOptions(board).maxEV`.  (The code rebuilds the
available numbers and the 8 line EVs exactly as `calculateBestOptions`
does, which is `lineEVsOf`.) -/
def calculateCellEV (board : List (Option ℤ)) (cellIndex : ℕ) : ℚ :=
  if board.getD cellIndex none ≠ none then 0
  else
    let baseline := (calculateBestOptions board).maxEV
    let lineEVs := lineEVsOf board
    let cellScore := ((cellLines cellIndex).map (fun li => lineEVs.getD li 0)).sum
    cellScore - baseline

/-- `getPositionPriority` of the game logic module. -/
def getPositionPriority (cellIndex : ℕ) : ℕ :=
  if cellIndex = 4 then 4
  else if cellIndex ∈ [0, 2, 6, 8] then 3
  else if cellIndex ∈ [1, 3, 5, 7] then 2
  else 1

/-- The `cellEVs` array of `findBestCellsToReveal`: for `i` from `0` to `8`,
the pair of `i` and `calculateCellEV(board, i)` whenever `board[i]` is null. -/
def cellEVPairs (board : List (Option ℤ)) : List (ℕ × ℚ) :=
  (List.range 9).filterMap
    (fun i => if board.getD i none = none then some (i, calculateCellEV board i) else none)

structure RevealResult where
  bestCells : List ℕ
  maxEV : ℚ
deriving DecidableEq

/-- `findBestCellsToReveal` of the game logic module.  JavaScript
`Array.prototype.sort` is stable, so the descending-priority sort is
embedded as a stable merge sort with the same comparator; the float literal
`epsilon = 0.01` is embedded as the rational `1/100`. -/
def findBestCellsToReveal (board : List (Option ℤ)) : RevealResult :=
  let filledCount := (board.filterMap id).length
  if 4 ≤ filledCount then ⟨[], 0⟩
  else
    let cellEVs := cellEVPairs board
    if cellEVs.length = 0 then ⟨[], 0⟩
    else
      let maxEV := listMax (cellEVs.map (fun c => c.2))
      let bestCells :=
        ((cellEVs.filter (fun c => decide (|c.2 - maxEV| < 1/100))).mergeSort
            (fun a b => decide (getPositionPriority b.1 ≤ getPositionPriority a.1))).map
          (fun c => c.1)
      ⟨bestCells, maxEV⟩

/-- The error messages `Validation.validateBoard` can push, with the data
they interpolate: an invalid value at a position, or the list of duplicated
values. -/
inductive BoardError where
  | invalidValue : ℕ → ℤ → BoardError
  | duplicateValues : List ℤ → BoardError
deriving DecidableEq

structure ValidationResult where
  isValid : Bool
  errors : List BoardError
  filledCount : ℕ
  filledValues : List ℤ
deriving DecidableEq

/-- `Validation.isValidNumber` applied to a board cell that already holds an
integer: `parseInt` of an integer is itself, so the check is `1 ≤ v ≤ 9`. -/
def isValidNumber (v : ℤ) : Bool :=
  decide (1 ≤ v) && decide (v ≤ 9)

/-- One step of the `board.forEach((value, index) => ...)` scan of
`Validation.validateBoard`, on the accumulator of
(errors, filledValues, duplicates). -/
def validateStep (acc : List BoardError × List ℤ × List ℤ) (p : ℕ × Option ℤ) :
    List BoardError × List ℤ × List ℤ :=
  match p.2 with
  | none => acc
  | some v =>
    if ¬ isValidNumber v then (acc.1 ++ [.invalidValue p.1 v], acc.2.1, acc.2.2)
    else if v ∈ acc.2.1 then (acc.1, acc.2.1, acc.2.2 ++ [v])
    else (acc.1, acc.2.1 ++ [v], acc.2.2)

/-- `Validation.validateBoard` of `src/validation.js`: scan the board
collecting invalid-value errors, the distinct valid values, and the
duplicated valid values; append a duplicate error when duplicates were
found; the board is valid when no error was collected. -/
def validateBoard (board : List (Option ℤ)) : ValidationResult :=
  let r := board.enum.foldl validateStep ([], [], [])
  let errors := if r.2.2.isEmpty then r.1 else r.1 ++ [.duplicateValues r.2.2]
  { isValid := errors.isEmpty,
    errors := errors,
    filledCount := r.2.1.length,
    filledValues := r.2.1 }

/-- Poisoning addition: `evTotal += ev` where an `undefined` payout has
turned the running total into `NaN` (embedded `none`). -/
def optAdd : Option ℚ → Option ℚ → Option ℚ
  | some a, some b => some (a + b)
  | _, _ => none

/-- The recursion of the `calculateOptionEV` copy in `src/cactpot-calc.js`,
identical to the module's except that the payout lookup has no `|| 0`
default: a missing total yields `undefined`, which poisons every total it is
added to and every division (`0/0` included) into `NaN`; both are embedded
as `none`. -/
def evAuxCalc : ℕ → List (Option ℤ) → List ℤ → Option ℚ
  | 0, vals, _ => (gilValueCalc (lineSum vals)).map (fun z : ℤ => (z : ℚ))
  | k+1, vals, avail =>
    match ((picks avail).map
        (fun p => evAuxCalc k (fillFirstNone vals p.1) p.2)).foldl optAdd (some 0) with
    | none => none
    | some s => if avail.length = 0 then none else some (s / (avail.length : ℚ))

/-- `calculateOptionEV` of `src/cactpot-calc.js`. -/
def calculateOptionEVCalc (optionValues : List (Option ℤ)) (availableNumbers : List ℤ) :
    Option ℚ :=
  evAuxCalc (optionValues.count none) optionValues availableNumbers

theorem le_foldl_max (as : List ℚ) : ∀ a : ℚ, a ≤ as.foldl max a := by
  induction as with
  | nil => intro a; simp
  | cons b t ih =>
    intro a
    simp only [List.foldl_cons]
    exact le_trans (le_max_left a b) (ih (max a b))

theorem mem_le_foldl_max (as : List ℚ) : ∀ (a x : ℚ), x ∈ as → x ≤ as.foldl max a := by
  induction as with
  | nil => intro a x hx; cases hx
  | cons b t ih =>
    intro a x hx
    simp only [List.foldl_cons]
    rcases List.mem_cons.mp hx with rfl | hx
    · exact le_trans (le_max_right a x) (le_foldl_max t (max a x))
    · exact ih (max a b) x hx

theorem foldl_max_mem (as : List ℚ) : ∀ a : ℚ, as.foldl max a = a ∨ as.foldl max a ∈ as := by
  induction as with
  | nil => intro a; left; rfl
  | cons b t ih =>
    intro a
    simp only [List.foldl_cons]
    rcases ih (max a b) with h | h
    · rcases max_choice a b with hm | hm
      · left; rw [h, hm]
      · right; rw [h, hm]; exact List.mem_cons_self b t
    · right; exact List.mem_cons_of_mem b h

theorem listMax_mem (l : List ℚ) (h : l ≠ []) : listMax l ∈ l := by
  cases l with
  | nil => cases h rfl
  | cons a as =>
    rcases foldl_max_mem as a with h1 | h1
    · show as.foldl max a ∈ a :: as
      rw [h1]; exact List.mem_cons_self a as
    · exact List.mem_cons_of_mem a h1

theorem le_listMax (l : List ℚ) (x : ℚ) (hx : x ∈ l) : x ≤ listMax l := by
  cases l with
  | nil => cases hx
  | cons a as =>
    rcases List.mem_cons.mp hx with rfl | h1
    · exact le_foldl_max as x
    · exact mem_le_foldl_max as a x h1

theorem length_eq_filterMap_add_count (l : List (Option ℤ)) :
    l.length = (l.filterMap id).length + l.count none := by
  induction l with
  | nil => rfl
  | cons a t ih => cases a <;> simp [List.count_cons, ih] <;> omega

theorem enumFrom_filterMap_snd :
    ∀ (l : List (Option ℤ)) (n : ℕ),
      (List.enumFrom n l).filterMap (fun p => p.2) = l.filterMap id := by
  intro l
  induction l with
  | nil => intro n; rfl
  | cons a t ih =>
    intro n
    cases a <;> simp [List.enumFrom, List.filterMap_cons, ih (n + 1)]

theorem enum_filterMap_snd (board : List (Option ℤ)) :
    board.enum.filterMap (fun p => p.2) = board.filterMap id :=
  enumFrom_filterMap_snd board 0

theorem foldl_optAdd_map_some (l : List ℚ) :
    ∀ c : ℚ, (l.map some).foldl optAdd (some c) = some (c + l.sum) := by
  induction l with
  | nil => intro c; simp [optAdd]
  | cons a t ih =>
    intro c
    simp only [List.map_cons, List.foldl_cons, optAdd]
    rw [ih (c + a), List.sum_cons]
    congr 1
    ring

theorem gilValueCalc_eq_some_gilValue (t : ℤ) (h₁ : 6 ≤ t) (h₂ : t ≤ 24) :
    gilValueCalc t = some (gilValue t) := by
  interval_cases t <;> decide

/-- Agreement of the two `calculateOptionEV` copies at the recursion level:
whenever every reachable completed line total is in the payout table, the
`cactpot-calc.js` copy computes a defined number equal to the module's. -/
theorem evAuxCalc_eq_some :
    ∀ (k : ℕ) (vals : List (Option ℤ)) (avail : List ℤ),
      vals.count none = k → k ≤ avail.length →
      (∀ t ∈ kperms k avail,
        6 ≤ lineSum (fillNones vals t) ∧ lineSum (fillNones vals t) ≤ 24) →
      evAuxCalc k vals avail = some (evAux k vals avail) := by
  intro k
  induction k with
  | zero =>
    intro vals avail _ _ hsum
    have h := hsum [] (by simp [kperms])
    rw [fillNones_nil] at h
    simp only [evAuxCalc, evAux]
    rw [gilValueCalc_eq_some_gilValue _ h.1 h.2]
    rfl
  | succ k ih =>
    intro vals avail hcount hlen hsum
    have hmem : none ∈ vals := List.count_pos_iff.mp (by omega)
    have hmap : (picks avail).map (fun p => evAuxCalc k (fillFirstNone vals p.1) p.2) =
        ((picks avail).map (fun p => evAux k (fillFirstNone vals p.1) p.2)).map some := by
      rw [List.map_map]
      apply List.map_congr_left
      intro p hp
      have hc : (fillFirstNone vals p.1).count none + 1 = vals.count none :=
        count_none_fillFirstNone vals p.1 hmem
      have hl : p.2.length + 1 = avail.length := length_of_mem_picks avail p hp
      exact ih (fillFirstNone vals p.1) p.2 (by omega) (by omega) (fun t ht => by
        have hmem2 := hsum (p.1 :: t) (cons_mem_kperms k avail p t hp ht)
        rwa [fillNones_cons] at hmem2)
    have hn : ¬ avail.length = 0 := by omega
    simp only [evAuxCalc, evAux]
    rw [hmap, foldl_optAdd_map_some]
    simp [hn]

/-- Invariant of the `validateBoard` scan: if the scan ends with no error
and no duplicate collected, then every scanned value was in range and the
scanned values extend the accumulated distinct values without repetition. -/
theorem validate_foldl_clean :
    ∀ (l : List (ℕ × Option ℤ)) (e : List BoardError) (f d : List ℤ),
      f.Nodup →
      (l.foldl validateStep (e, f, d)).1 = [] →
      (l.foldl validateStep (e, f, d)).2.2 = [] →
      e = [] ∧ d = [] ∧
        (∀ v ∈ l.filterMap (fun p => p.2), isValidNumber v = true) ∧
        (f ++ l.filterMap (fun p => p.2)).Nodup := by
  intro l
  induction l with
  | nil =>
    intro e f d hf h1 h2
    exact ⟨h1, h2, by simp, by simpa using hf⟩
  | cons a t ih =>
    intro e f d hf h1 h2
    rcases a with ⟨i, v⟩
    cases v with
    | none =>
      simp only [List.foldl_cons] at h1 h2
      have hstep : validateStep (e, f, d) (i, none) = (e, f, d) := rfl
      rw [hstep] at h1 h2
      have hres := ih e f d hf h1 h2
      refine ⟨hres.1, hres.2.1, ?_, ?_⟩
      · simpa [List.filterMap_cons] using hres.2.2.1
      · simpa [List.filterMap_cons] using hres.2.2.2
    | some v =>
      simp only [List.foldl_cons] at h1 h2
      by_cases hv : isValidNumber v
      · by_cases hmem : v ∈ f
        · have hstep : validateStep (e, f, d) (i, some v) = (e, f, d ++ [v]) := by
            simp [validateStep, hv, hmem]
          rw [hstep] at h1 h2
          have hres := ih e f (d ++ [v]) hf h1 h2
          exact absurd hres.2.1 (by simp)
        · have hstep : validateStep (e, f, d) (i, some v) = (e, f ++ [v], d) := by
            simp [validateStep, hv, hmem]
          rw [hstep] at h1 h2
          have hnd : (f ++ [v]).Nodup := by
            simp [List.nodup_append, hf, hmem]
          have hres := ih e (f ++ [v]) d hnd h1 h2
          refine ⟨hres.1, hres.2.1, ?_, ?_⟩
          · intro x hx
            simp only [List.filterMap_cons] at hx
            rcases List.mem_cons.mp hx with rfl | hx
            · exact hv
            · exact hres.2.2.1 x hx
          · have h4 := hres.2.2.2
            simp only [List.filterMap_cons]
            rwa [List.append_assoc, List.singleton_append] at h4
      · have hstep : validateStep (e, f, d) (i, some v) =
            (e ++ [.invalidValue i v], f, d) := by
          simp [validateStep, hv]
        rw [hstep] at h1 h2
        have hres := ih (e ++ [.invalidValue i v]) f d hf h1 h2
        exact absurd hres.1 (by simp)

/-- If `validateBoard` reports a valid board then every revealed value is in
range 1..9 and no revealed value repeats. -/
theorem validateBoard_isValid_sound (board : List (Option ℤ)) :
    (validateBoard board).isValid = true →
      (∀ v ∈ board.filterMap id, isValidNumber v = true) ∧
        (board.filterMap id).Nodup := by
  intro h
  unfold validateBoard at h
  simp only at h
  by_cases hd : (board.enum.foldl validateStep ([], [], [])).2.2.isEmpty
  · rw [if_pos hd] at h
    have h1 : (board.enum.foldl validateStep ([], [], [])).1 = [] :=
      List.isEmpty_iff.mp h
    have h2 : (board.enum.foldl validateStep ([], [], [])).2.2 = [] :=
      List.isEmpty_iff.mp hd
    have hres := validate_foldl_clean board.enum [] [] [] List.nodup_nil h1 h2
    rw [enum_filterMap_snd] at hres
    exact ⟨hres.2.2.1, by simpa using hres.2.2.2⟩
  · rw [if_neg hd] at h
    simp at h

theorem int_cast_sum (l : List ℤ) : ((l.sum : ℤ) : ℚ) = (l.map (fun z : ℤ => (z : ℚ))).sum := by
  induction l with
  | nil => simp
  | cons a t ih => simp [ih]

/-- Closed evaluation form of `calculateOptionEV`: an integer sum of payouts
over all ordered assignments, divided by the falling factorial. -/
theorem calculateOptionEV_eval (vals : List (Option ℤ)) (avail : List ℤ) (k : ℕ)
    (hk : vals.count none = k) :
    calculateOptionEV vals avail =
      ((((kperms k avail).map (fun t => gilValue (lineSum vals + t.sum))).sum : ℤ) : ℚ)
        / ((numPerms k avail.length : ℕ) : ℚ) := by
  unfold calculateOptionEV
  rw [hk, evAux_eq_evSum k vals avail hk, evSum_eq_kperms_average]
  rw [int_cast_sum, List.map_map, Function.comp_def, kperms_length]

theorem optionEV_full (a b c : ℤ) (avail : List ℤ) :
    calculateOptionEV [some a, some b, some c] avail = (gilValue (a + b + c) : ℚ) := by
  have h : (([some a, some b, some c] : List (Option ℤ)).count none) = 0 := by simp
  unfold calculateOptionEV
  rw [h]
  show (gilValue (lineSum [some a, some b, some c]) : ℚ) = _
  have hs : lineSum [some a, some b, some c] = a + b + c := by simp [lineSum]; ring
  rw [hs]

/-- Claim C1: for a line-values triple with `k` unrevealed slots and a
duplicate-free available list of at least `k` digits, `calculateOptionEV`
returns the uniform average of the payout over every ordered assignment of
`k` digits drawn without replacement from the available digits into the
unrevealed slots (for `k = 0`, the payout of the sum of the three values). -/
theorem claim1_optionEV_uniform_average (vals : List (Option ℤ)) (avail : List ℤ)
    (hlen : vals.length = 3) (hnd : avail.Nodup) (hk : vals.count none ≤ avail.length) :
    calculateOptionEV vals avail =
      ((kperms (vals.count none) avail).map
          (fun t => (gilValue (lineSum (fillNones vals t)) : ℚ))).sum
        / ((kperms (vals.count none) avail).length : ℚ) := by
  unfold calculateOptionEV
  rw [evAux_eq_evSum (vals.count none) vals avail rfl, evSum_eq_kperms_average]
  congr 1
  refine congrArg List.sum (List.map_congr_left ?_)
  intro t ht
  have hlt : t.length = vals.count none := length_of_mem_kperms _ avail t ht
  rw [lineSum_fillNones t vals (by omega)]

theorem claim1_witness :
    (([none, some 2, none] : List (Option ℤ)).length = 3 ∧
      ([1, 3, 4] : List ℤ).Nodup ∧
      ([none, some 2, none] : List (Option ℤ)).count none ≤ ([1, 3, 4] : List ℤ).length) ∧
    calculateOptionEV [none, some 2, none] [1, 3, 4] =
      ((kperms (([none, some 2, none] : List (Option ℤ)).count none) [1, 3, 4]).map
          (fun t => (gilValue (lineSum (fillNones [none, some 2, none] t)) : ℚ))).sum
        / ((kperms (([none, some 2, none] : List (Option ℤ)).count none) [1, 3, 4]).length : ℚ) :=
  ⟨⟨by decide, by decide, by decide⟩,
    claim1_optionEV_uniform_average [none, some 2, none] [1, 3, 4]
      (by decide) (by decide) (by decide)⟩

/-- Claim C2: `gilValue` returns exactly the fixed table value for every sum
from 6 to 24, and `0` for every integer sum outside that domain. -/
theorem claim2_payout_table :
    (gilValue 6 = 10000 ∧ gilValue 7 = 36 ∧ gilValue 8 = 720 ∧ gilValue 9 = 360 ∧
     gilValue 10 = 80 ∧ gilValue 11 = 252 ∧ gilValue 12 = 108 ∧ gilValue 13 = 72 ∧
     gilValue 14 = 54 ∧ gilValue 15 = 180 ∧ gilValue 16 = 72 ∧ gilValue 17 = 180 ∧
     gilValue 18 = 119 ∧ gilValue 19 = 36 ∧ gilValue 20 = 306 ∧ gilValue 21 = 1080 ∧
     gilValue 22 = 144 ∧ gilValue 23 = 1800 ∧ gilValue 24 = 3600) ∧
    ∀ s : ℤ, s < 6 ∨ 24 < s → gilValue s = 0 := by
  constructor
  · decide
  · intro s hs
    have hnone : valueToGil s = none := by
      unfold valueToGil
      rw [if_neg (by omega : ¬ s = 6), if_neg (by omega : ¬ s = 7), if_neg (by omega : ¬ s = 8), if_neg (by omega : ¬ s = 9), if_neg (by omega : ¬ s = 10), if_neg (by omega : ¬ s = 11), if_neg (by omega : ¬ s = 12), if_neg (by omega : ¬ s = 13), if_neg (by omega : ¬ s = 14), if_neg (by omega : ¬ s = 15), if_neg (by omega : ¬ s = 16), if_neg (by omega : ¬ s = 17), if_neg (by omega : ¬ s = 18), if_neg (by omega : ¬ s = 19), if_neg (by omega : ¬ s = 20), if_neg (by omega : ¬ s = 21), if_neg (by omega : ¬ s = 22), if_neg (by omega : ¬ s = 23), if_neg (by omega : ¬ s = 24)]
    unfold gilValue
    rw [hnone]
    rfl

theorem claim2_witness : gilValue 5 = 0 ∧ gilValue 25 = 0 :=
  ⟨claim2_payout_table.2 5 (Or.inl (by norm_num)),
   claim2_payout_table.2 25 (Or.inr (by norm_num))⟩

/-- Claim C6: for a fully revealed line-values triple, `calculateOptionEV`
is exactly the payout of the sum of the three values, whatever the
available-digits argument contains. -/
theorem claim6_full_line_is_payout (a b c : ℤ) (avail : List ℤ) :
    calculateOptionEV [some a, some b, some c] avail = (gilValue (a + b + c) : ℚ) :=
  optionEV_full a b c avail

/-- Claim C7: `calculateOptionEV` is invariant under permutation of the
three line-value slots, for every available-digits list. -/
theorem claim7_slot_permutation_invariant (vals vals2 : List (Option ℤ)) (avail : List ℤ)
    (hlen : vals.length = 3) (hperm : List.Perm vals vals2) :
    calculateOptionEV vals avail = calculateOptionEV vals2 avail := by
  unfold calculateOptionEV
  have hcount : vals2.count none = vals.count none := by
    have h1 := length_eq_filterMap_add_count vals
    have h2 := length_eq_filterMap_add_count vals2
    have h3 : vals.length = vals2.length := hperm.length_eq
    have h4 : (vals.filterMap id).length = (vals2.filterMap id).length :=
      (hperm.filterMap id).length_eq
    omega
  have hsum : lineSum vals = lineSum vals2 :=
    List.Perm.sum_eq (hperm.map (fun v => v.getD 0))
  rw [evAux_eq_evSum (vals.count none) vals avail rfl,
    evAux_eq_evSum (vals2.count none) vals2 avail rfl, hcount, hsum]

theorem claim7_witness :
    (([some 1, none, some 3] : List (Option ℤ)).length = 3 ∧
      List.Perm ([some 1, none, some 3] : List (Option ℤ)) [none, some 3, some 1]) ∧
    calculateOptionEV [some 1, none, some 3] [2, 5] =
      calculateOptionEV [none, some 3, some 1] [2, 5] :=
  ⟨⟨by decide, by decide⟩,
    claim7_slot_permutation_invariant [some 1, none, some 3] [none, some 3, some 1] [2, 5]
      (by decide) (by decide)⟩

/-- Claim C10: for a position whose cell is already revealed,
`calculateCellEV` returns exactly `0`. -/
theorem claim10_revealed_cell_zero (board : List (Option ℤ)) (p : ℕ)
    (h : board.getD p none ≠ none) :
    calculateCellEV board p = 0 := by
  unfold calculateCellEV
  rw [if_pos h]

theorem claim10_witness :
    (([some 5, none] : List (Option ℤ)).getD 0 none ≠ none) ∧
    calculateCellEV [some 5, none] 0 = 0 :=
  ⟨by decide, claim10_revealed_cell_zero [some 5, none] 0 (by decide)⟩

theorem foldl_max_replicate : ∀ (n : ℕ) (a : ℚ), (List.replicate n a).foldl max a = a := by
  intro n
  induction n with
  | zero => intro a; rfl
  | succ n ih =>
    intro a
    rw [List.replicate_succ, List.foldl_cons, max_self]
    exact ih a

theorem listMax_replicate_eight (a : ℚ) : listMax (List.replicate 8 a) = a := by
  show (List.replicate 7 a).foldl max a = a
  exact foldl_max_replicate 7 a

/-- Claim C3: `calculateBestOptions` returns as `maxEV` the exact maximum of
the 8 per-line expected values, and as `bestOptions` exactly the lines whose
expected value exactly equals `maxEV` (every exact tie reported); on an
entirely empty board all 8 lines are returned. -/
theorem claim3_exact_max_and_ties (board : List (Option ℤ)) (hlen : board.length = 9) :
    ((calculateBestOptions board).maxEV ∈ lineEVsOf board ∧
      ∀ e ∈ lineEVsOf board, e ≤ (calculateBestOptions board).maxEV) ∧
    (∀ l, l ∈ (calculateBestOptions board).bestOptions ↔
      ∃ i, i < 8 ∧ options.getD i [] = l ∧
        (lineEVsOf board).getD i 0 = (calculateBestOptions board).maxEV) ∧
    (calculateBestOptions (List.replicate 9 none)).bestOptions = options := by
  have hlen8 : (lineEVsOf board).length = 8 := by
    simp [lineEVsOf, lineValuesOf, options]
  have hne : lineEVsOf board ≠ [] := by
    intro h
    rw [h] at hlen8
    cases hlen8
  have hmax : (calculateBestOptions board).maxEV = listMax (lineEVsOf board) := rfl
  have hbest : (calculateBestOptions board).bestOptions =
      ((lineEVsOf board).enum.filter
        (fun p => decide (p.2 = listMax (lineEVsOf board)))).map
        (fun p => options.getD p.1 []) := rfl
  refine ⟨⟨?_, ?_⟩, ?_, ?_⟩
  · rw [hmax]
    exact listMax_mem _ hne
  · intro e he
    rw [hmax]
    exact le_listMax _ e he
  · intro l
    rw [hbest, hmax]
    constructor
    · intro hm
      obtain ⟨p, hp, hl⟩ := List.mem_map.mp hm
      obtain ⟨hpe, hcond⟩ := List.mem_filter.mp hp
      rcases p with ⟨i, e⟩
      have hget := List.mem_enum_iff_getElem?.mp hpe
      obtain ⟨hi, he⟩ := List.getElem?_eq_some_iff.mp hget
      refine ⟨i, by omega, hl, ?_⟩
      rw [List.getD_eq_getElem _ _ hi, he]
      exact of_decide_eq_true hcond
    · rintro ⟨i, hi, hl, hev⟩
      have hi8 : i < (lineEVsOf board).length := by omega
      apply List.mem_map.mpr
      refine ⟨(i, (lineEVsOf board)[i]), List.mem_filter.mpr ⟨?_, ?_⟩, hl⟩
      · exact List.mem_enum_iff_getElem?.mpr (List.getElem?_eq_getElem hi8)
      · rw [decide_eq_true_eq]
        rw [List.getD_eq_getElem _ _ hi8] at hev
        exact hev
  · have h1 : lineValuesOf (List.replicate 9 none) = List.replicate 8 [none, none, none] := by
      decide
    have h2 : lineEVsOf (List.replicate 9 none) =
        List.replicate 8 (calculateOptionEV [none, none, none]
          (availableNumbersOf (List.replicate 9 none))) := by
      unfold lineEVsOf
      rw [h1, List.map_replicate]
    have hb : (calculateBestOptions (List.replicate 9 none)).bestOptions =
        ((lineEVsOf (List.replicate 9 none)).enum.filter
          (fun p => decide (p.2 = listMax (lineEVsOf (List.replicate 9 none))))).map
          (fun p => options.getD p.1 []) := rfl
    rw [hb, h2]
    rw [listMax_replicate_eight]
    have hfilter : (List.replicate 8 (calculateOptionEV [none, none, none]
          (availableNumbersOf (List.replicate 9 none)))).enum.filter
          (fun p => decide (p.2 = calculateOptionEV [none, none, none]
            (availableNumbersOf (List.replicate 9 none)))) =
        (List.replicate 8 (calculateOptionEV [none, none, none]
          (availableNumbersOf (List.replicate 9 none)))).enum := by
      apply List.filter_eq_self.mpr
      intro p hp
      rcases p with ⟨i, x⟩
      have hget := List.mem_enum_iff_getElem?.mp hp
      obtain ⟨hi, hx⟩ := List.getElem?_eq_some_iff.mp hget
      rw [List.getElem_replicate] at hx
      rw [decide_eq_true_eq]
      exact hx.symm
    rw [hfilter]
    have hmap : ((List.replicate 8 (calculateOptionEV [none, none, none]
          (availableNumbersOf (List.replicate 9 none)))).enum).map
          (fun p => options.getD p.1 []) =
        (((List.replicate 8 (calculateOptionEV [none, none, none]
          (availableNumbersOf (List.replicate 9 none)))).enum).map Prod.fst).map
          (fun i => options.getD i []) := by
      rw [List.map_map]
      rfl
    rw [hmap, List.enum_map_fst, List.length_replicate]
    decide

theorem claim3_witness :
    (List.replicate 9 (none : Option ℤ)).length = 9 ∧
    (calculateBestOptions (List.replicate 9 (none : Option ℤ))).bestOptions = options :=
  ⟨by simp, (claim3_exact_max_and_ties (List.replicate 9 none) (by simp)).2.2⟩

/-- The scenario board of the specification: positions 0..3 revealed as
1, 2, 3, 4 (row 1 fully revealed with sum 6). -/
def board1234 : List (Option ℤ) :=
  [some 1, some 2, some 3, some 4, none, none, none, none, none]

/-- Claim C5: with 4 or more revealed cells `findBestCellsToReveal` returns
an empty cell list, and on the board `[1,2,3,4,null,...]` the analyzer
reports exactly Row 1 (`[0,1,2]`) with `maxEV` exactly 10000 while the
cell suggestion list is empty. -/
theorem claim5_four_revealed_no_suggestions :
    (∀ board : List (Option ℤ), 4 ≤ (board.filterMap id).length →
      findBestCellsToReveal board = ⟨[], 0⟩) ∧
    findBestCellsToReveal board1234 = ⟨[], 0⟩ ∧
    calculateBestOptions board1234 = ⟨[[0, 1, 2]], 10000⟩ := by
  refine ⟨?_, ?_, ?_⟩
  · intro board h
    unfold findBestCellsToReveal
    simp [h]
  · rfl
  · have e0 : calculateOptionEV [some 1, some 2, some 3] [5, 6, 7, 8, 9] = 10000 := by
      rw [optionEV_full]
      norm_num [show gilValue 6 = 10000 by decide]
    have e1 : calculateOptionEV [some 4, none, none] [5, 6, 7, 8, 9] = 1154/5 := by
      rw [calculateOptionEV_eval [some 4, none, none] [5, 6, 7, 8, 9] 2 (by decide)]
      norm_num [numPerms, show ((kperms 2 [5, 6, 7, 8, 9]).map
          (fun t => gilValue (lineSum [some 4, none, none] + t.sum))).sum = 4616 by decide]
    have e2 : calculateOptionEV [none, none, none] [5, 6, 7, 8, 9] = 1723/2 := by
      rw [calculateOptionEV_eval [none, none, none] [5, 6, 7, 8, 9] 3 (by decide)]
      norm_num [numPerms, show ((kperms 3 [5, 6, 7, 8, 9]).map
          (fun t => gilValue (lineSum [none, none, none] + t.sum))).sum = 51690 by decide]
    have e3 : calculateOptionEV [some 1, some 4, none] [5, 6, 7, 8, 9] = 566/5 := by
      rw [calculateOptionEV_eval [some 1, some 4, none] [5, 6, 7, 8, 9] 1 (by decide)]
      norm_num [numPerms, show ((kperms 1 [5, 6, 7, 8, 9]).map
          (fun t => gilValue (lineSum [some 1, some 4, none] + t.sum))).sum = 566 by decide]
    have e4 : calculateOptionEV [some 2, none, none] [5, 6, 7, 8, 9] = 229/2 := by
      rw [calculateOptionEV_eval [some 2, none, none] [5, 6, 7, 8, 9] 2 (by decide)]
      norm_num [numPerms, show ((kperms 2 [5, 6, 7, 8, 9]).map
          (fun t => gilValue (lineSum [some 2, none, none] + t.sum))).sum = 2290 by decide]
    have e5 : calculateOptionEV [some 3, none, none] [5, 6, 7, 8, 9] = 659/5 := by
      rw [calculateOptionEV_eval [some 3, none, none] [5, 6, 7, 8, 9] 2 (by decide)]
      norm_num [numPerms, show ((kperms 2 [5, 6, 7, 8, 9]).map
          (fun t => gilValue (lineSum [some 3, none, none] + t.sum))).sum = 2636 by decide]
    have e6 : calculateOptionEV [some 1, none, none] [5, 6, 7, 8, 9] = 1091/10 := by
      rw [calculateOptionEV_eval [some 1, none, none] [5, 6, 7, 8, 9] 2 (by decide)]
      norm_num [numPerms, show ((kperms 2 [5, 6, 7, 8, 9]).map
          (fun t => gilValue (lineSum [some 1, none, none] + t.sum))).sum = 2182 by decide]
    have hav : availableNumbersOf board1234 = [5, 6, 7, 8, 9] := by decide
    have hlv : lineValuesOf board1234 =
        [[some 1, some 2, some 3], [some 4, none, none], [none, none, none],
         [some 1, some 4, none], [some 2, none, none], [some 3, none, none],
         [some 1, none, none], [some 3, none, none]] := by decide
    have hev : lineEVsOf board1234 =
        [10000, 1154/5, 1723/2, 566/5, 229/2, 659/5, 1091/10, 659/5] := by
      unfold lineEVsOf
      rw [hlv]
      simp only [hav, List.map_cons, List.map_nil, e0, e1, e2, e3, e4, e5, e6]
    have hmax : listMax [10000, 1154/5, 1723/2, 566/5, 229/2, 659/5, 1091/10, 659/5] =
        10000 := by
      show List.foldl max 10000 _ = 10000
      norm_num [max_def]
    unfold calculateBestOptions
    simp only [hev, hmax]
    norm_num [List.enum, List.enumFrom, List.filter_cons, List.filter_nil, options]

theorem claim5_witness :
    4 ≤ ((board1234.filterMap id).length) ∧ findBestCellsToReveal board1234 = ⟨[], 0⟩ :=
  ⟨by decide, claim5_four_revealed_no_suggestions.1 board1234 (by decide)⟩

/-- The malformed board used to refute claim C8 as stated: the digit 1 is
revealed twice, yet the analyzer computes an ordinary result from it. -/
def dupBoard : List (Option ℤ) :=
  [some 1, some 1, some 2, some 3, some 4, some 5, some 6, some 7, some 8]

/-- Counterexample to claim C8 as stated: on a malformed board (duplicate
revealed digit 1, flagged invalid by `validateBoard`), `calculateBestOptions`
does not fail with an invalid-board error — it returns a result computed
from the malformed board (Row 3 with EV 1080). -/
theorem claim8_counterexample :
    (validateBoard dupBoard).isValid = false ∧
    calculateBestOptions dupBoard = ⟨[[6, 7, 8]], 1080⟩ := by
  constructor
  · decide
  · have hav : availableNumbersOf dupBoard = [9] := by decide
    have hlv : lineValuesOf dupBoard =
        [[some 1, some 1, some 2], [some 3, some 4, some 5], [some 6, some 7, some 8],
         [some 1, some 3, some 6], [some 1, some 4, some 7], [some 2, some 5, some 8],
         [some 1, some 4, some 8], [some 2, some 4, some 6]] := by decide
    have hev : lineEVsOf dupBoard = [0, 108, 1080, 80, 108, 180, 72, 108] := by
      unfold lineEVsOf
      rw [hlv]
      simp only [hav, List.map_cons, List.map_nil, optionEV_full]
      norm_num [show gilValue 4 = 0 by decide, show gilValue 12 = 108 by decide,
        show gilValue 21 = 1080 by decide, show gilValue 10 = 80 by decide,
        show gilValue 15 = 180 by decide, show gilValue 13 = 72 by decide]
    have hmax : listMax [0, 108, 1080, 80, 108, 180, 72, 108] = (1080 : ℚ) := by
      show List.foldl max 0 _ = 1080
      norm_num [max_def]
    unfold calculateBestOptions
    simp only [hev, hmax]
    norm_num [List.enum, List.enumFrom, List.filter_cons, List.filter_nil, options]

/-- Claim C8, amended to what the code does: the analyzer itself performs no
validation (it computes a result even from a malformed board — see the
counterexample), while the separate `Validation.validateBoard`, which
`calculateBestOptions` never calls, reports `isValid = false` with a
descriptive error for every board with an out-of-range or duplicated
revealed digit. -/
theorem claim8_validation_flags_malformed (board : List (Option ℤ))
    (h : (∃ v ∈ board.filterMap id, v < 1 ∨ 9 < v) ∨ ¬ (board.filterMap id).Nodup) :
    (validateBoard board).isValid = false := by
  cases hb : (validateBoard board).isValid with
  | false => rfl
  | true =>
    exfalso
    have hs := validateBoard_isValid_sound board hb
    rcases h with ⟨v, hv, hrange⟩ | hdup
    · have := hs.1 v hv
      simp only [isValidNumber, Bool.and_eq_true, decide_eq_true_eq] at this
      omega
    · exact hdup hs.2

theorem claim8_witness :
    ((∃ v ∈ dupBoard.filterMap id, v < 1 ∨ 9 < v) ∨ ¬ (dupBoard.filterMap id).Nodup) ∧
    (validateBoard dupBoard).isValid = false :=
  ⟨Or.inr (by decide), claim8_validation_flags_malformed dupBoard (Or.inr (by decide))⟩

/-- Counterexample to claim C9 as stated: at total 5 the module copy of
`gilValue` returns 0 while the `cactpot-calc.js` copy returns `undefined`
(embedded `none`), so the two copies do not return equal values for every
integer total. -/
theorem claim9_counterexample :
    gilValue 5 = 0 ∧ gilValueCalc 5 = none ∧ ¬ gilValueCalc 5 = some (gilValue 5) := by
  refine ⟨by decide, by decide, ?_⟩
  intro h
  exact absurd h (by decide)

/-- Claim C9, amended: the two `gilValue` copies agree on every total in the
table domain 6..24 (outside it the module returns 0 and the copy returns
`undefined`), and consequently the two `calculateOptionEV` copies agree on
every input whose completions all have totals inside the table domain —
which includes every line of every well-formed board. -/
theorem claim9_copies_agree_on_domain :
    (∀ t : ℤ, 6 ≤ t → t ≤ 24 → gilValueCalc t = some (gilValue t)) ∧
    (∀ (vals : List (Option ℤ)) (avail : List ℤ),
      vals.count none ≤ avail.length →
      (∀ t ∈ kperms (vals.count none) avail,
        6 ≤ lineSum (fillNones vals t) ∧ lineSum (fillNones vals t) ≤ 24) →
      calculateOptionEVCalc vals avail = some (calculateOptionEV vals avail)) :=
  ⟨gilValueCalc_eq_some_gilValue,
   fun vals avail h1 h2 => evAuxCalc_eq_some (vals.count none) vals avail rfl h1 h2⟩

theorem claim9_witness :
    ((6 : ℤ) ≤ 6 ∧ (6 : ℤ) ≤ 24 ∧ gilValueCalc 6 = some (gilValue 6)) ∧
    (([some 1, some 2, none] : List (Option ℤ)).count none ≤ ([3, 4] : List ℤ).length ∧
      calculateOptionEVCalc [some 1, some 2, none] [3, 4] =
        some (calculateOptionEV [some 1, some 2, none] [3, 4])) :=
  ⟨⟨by norm_num, by norm_num, claim9_copies_agree_on_domain.1 6 (by norm_num) (by norm_num)⟩,
   ⟨by decide, claim9_copies_agree_on_domain.2 [some 1, some 2, none] [3, 4]
      (by decide) (by decide)⟩⟩

theorem mem_cellEVPairs (board : List (Option ℤ)) (pr : ℕ × ℚ) :
    pr ∈ cellEVPairs board ↔
      pr.1 < 9 ∧ board.getD pr.1 none = none ∧ pr.2 = calculateCellEV board pr.1 := by
  rcases pr with ⟨i, e⟩
  unfold cellEVPairs
  rw [List.mem_filterMap]
  constructor
  · rintro ⟨j, hj, hsome⟩
    rw [List.mem_range] at hj
    rw [Option.ite_none_right_eq_some, Option.some.injEq] at hsome
    obtain ⟨hc, heq⟩ := hsome
    cases heq
    exact ⟨hj, hc, rfl⟩
  · rintro ⟨h1, h2, h3⟩
    refine ⟨i, List.mem_range.mpr h1, ?_⟩
    rw [Option.ite_none_right_eq_some, Option.some.injEq]
    refine ⟨h2, ?_⟩
    simp only at h3
    rw [h3]

theorem cellEVPairs_pairwise (board : List (Option ℤ)) :
    (cellEVPairs board).Pairwise (fun a b => a.1 < b.1) := by
  unfold cellEVPairs
  rw [List.pairwise_filterMap]
  refine (List.pairwise_lt_range 9).imp ?_
  intro i j hij x hx y hy
  have hx1 : x.1 = i := by
    by_cases hc : board.getD i none = none
    · rw [if_pos hc, Option.mem_def, Option.some.injEq] at hx
      rw [← hx]
    · rw [if_neg hc] at hx
      cases hx
  have hy1 : y.1 = j := by
    by_cases hc : board.getD j none = none
    · rw [if_pos hc, Option.mem_def, Option.some.injEq] at hy
      rw [← hy]
    · rw [if_neg hc] at hy
      cases hy
  omega

theorem exists_unrevealed (board : List (Option ℤ)) (hlen : board.length = 9)
    (hfill : (board.filterMap id).length < 4) :
    ∃ i, i < 9 ∧ board.getD i none = none := by
  have h := length_eq_filterMap_add_count board
  have hc : 0 < board.count none := by omega
  have hmem : none ∈ board := List.count_pos_iff.mp hc
  obtain ⟨i, hi, hget⟩ := List.mem_iff_getElem.mp hmem
  exact ⟨i, by omega, by rw [List.getD_eq_getElem _ _ hi]; exact hget⟩

theorem findBestCells_branch (board : List (Option ℤ))
    (hfill : ¬ 4 ≤ (board.filterMap id).length)
    (hne : ¬ (cellEVPairs board).length = 0) :
    findBestCellsToReveal board =
      ⟨(((cellEVPairs board).filter
          (fun c => decide (|c.2 - listMax ((cellEVPairs board).map (fun c => c.2))| < 1/100))).mergeSort
          (fun a b => decide (getPositionPriority b.1 ≤ getPositionPriority a.1))).map
        (fun c => c.1),
       listMax ((cellEVPairs board).map (fun c => c.2))⟩ := by
  unfold findBestCellsToReveal
  simp only [if_neg hfill, if_neg hne]

/-- Claim C4: on a board with fewer than 4 revealed cells,
`findBestCellsToReveal` returns exactly the unrevealed positions whose gain
(`calculateCellEV`) is within 0.01 of the maximum gain (`maxEV`), ordered by
descending position priority (center before corners before edges), with the
original relative order (ascending position) preserved among positions of
equal priority. -/
theorem claim4_best_cells (board : List (Option ℤ)) (hlen : board.length = 9)
    (hfill : (board.filterMap id).length < 4) :
    (∀ p : ℕ, p ∈ (findBestCellsToReveal board).bestCells ↔
      (p < 9 ∧ board.getD p none = none ∧
        |calculateCellEV board p - (findBestCellsToReveal board).maxEV| < 1/100)) ∧
    ((∃ p, p < 9 ∧ board.getD p none = none ∧
        calculateCellEV board p = (findBestCellsToReveal board).maxEV) ∧
      ∀ p, p < 9 → board.getD p none = none →
        calculateCellEV board p ≤ (findBestCellsToReveal board).maxEV) ∧
    (findBestCellsToReveal board).bestCells.Pairwise
      (fun a b => getPositionPriority b ≤ getPositionPriority a) ∧
    ∀ q : ℕ, ((findBestCellsToReveal board).bestCells.filter
      (fun p => decide (getPositionPriority p = q))).Pairwise (· ≤ ·) := by
  obtain ⟨i0, hi0, hg0⟩ := exists_unrevealed board hlen hfill
  have hmem0 : (i0, calculateCellEV board i0) ∈ cellEVPairs board :=
    (mem_cellEVPairs board _).mpr ⟨hi0, hg0, rfl⟩
  have hne : ¬ (cellEVPairs board).length = 0 := by
    intro h
    rw [List.length_eq_zero] at h
    rw [h] at hmem0
    cases hmem0
  have hb := findBestCells_branch board (by omega) hne
  have hmaxEV : (findBestCellsToReveal board).maxEV =
      listMax ((cellEVPairs board).map (fun c => c.2)) := by rw [hb]
  have hcells : (findBestCellsToReveal board).bestCells =
      (((cellEVPairs board).filter
          (fun c => decide (|c.2 - listMax ((cellEVPairs board).map (fun c => c.2))| < 1/100))).mergeSort
          (fun a b => decide (getPositionPriority b.1 ≤ getPositionPriority a.1))).map
        (fun c => c.1) := by rw [hb]
  have htrans : ∀ a b c : ℕ × ℚ,
      (fun a b : ℕ × ℚ => decide (getPositionPriority b.1 ≤ getPositionPriority a.1)) a b →
      (fun a b : ℕ × ℚ => decide (getPositionPriority b.1 ≤ getPositionPriority a.1)) b c →
      (fun a b : ℕ × ℚ => decide (getPositionPriority b.1 ≤ getPositionPriority a.1)) a c := by
    intro a b c hab hbc
    simp only [decide_eq_true_eq] at hab hbc ⊢
    omega
  have htotal : ∀ a b : ℕ × ℚ,
      ((fun a b : ℕ × ℚ => decide (getPositionPriority b.1 ≤ getPositionPriority a.1)) a b ||
       (fun a b : ℕ × ℚ => decide (getPositionPriority b.1 ≤ getPositionPriority a.1)) b a) = true := by
    intro a b
    rcases Nat.le_total (getPositionPriority b.1) (getPositionPriority a.1) with h | h
    · simp [h]
    · simp [h]
  have hperm := List.mergeSort_perm
      ((cellEVPairs board).filter
        (fun c => decide (|c.2 - listMax ((cellEVPairs board).map (fun c => c.2))| < 1/100)))
      (fun a b : ℕ × ℚ => decide (getPositionPriority b.1 ≤ getPositionPriority a.1))
  refine ⟨?_, ⟨?_, ?_⟩, ?_, ?_⟩
  · intro p
    rw [hcells, hmaxEV]
    constructor
    · intro hp
      obtain ⟨c, hc, hc1⟩ := List.mem_map.mp hp
      have hcf := List.mem_mergeSort.mp hc
      rw [List.mem_filter] at hcf
      obtain ⟨hcp, hcond⟩ := hcf
      rw [mem_cellEVPairs] at hcp
      obtain ⟨h1, h2, h3⟩ := hcp
      subst hc1
      refine ⟨h1, h2, ?_⟩
      rw [← h3]
      exact of_decide_eq_true hcond
    · rintro ⟨h1, h2, h3⟩
      apply List.mem_map.mpr
      refine ⟨(p, calculateCellEV board p), ?_, rfl⟩
      rw [List.mem_mergeSort, List.mem_filter]
      exact ⟨(mem_cellEVPairs board _).mpr ⟨h1, h2, rfl⟩, decide_eq_true h3⟩
  · rw [hmaxEV]
    have hne2 : (cellEVPairs board).map (fun c => c.2) ≠ [] := by
      intro h
      rw [List.map_eq_nil_iff] at h
      rw [h] at hmem0
      cases hmem0
    have hmm := listMax_mem _ hne2
    obtain ⟨c, hc, hc2⟩ := List.mem_map.mp hmm
    rw [mem_cellEVPairs] at hc
    exact ⟨c.1, hc.1, hc.2.1, by rw [← hc.2.2]; exact hc2⟩
  · intro p hp1 hp2
    rw [hmaxEV]
    apply le_listMax
    exact List.mem_map.mpr ⟨(p, calculateCellEV board p),
      (mem_cellEVPairs board _).mpr ⟨hp1, hp2, rfl⟩, rfl⟩
  · rw [hcells]
    apply List.pairwise_map.mpr
    have hs := List.sorted_mergeSort htrans htotal
      ((cellEVPairs board).filter
        (fun c => decide (|c.2 - listMax ((cellEVPairs board).map (fun c => c.2))| < 1/100)))
    exact hs.imp (fun h => of_decide_eq_true h)
  · intro q
    rw [hcells]
    have hflpw : ((cellEVPairs board).filter
        (fun c => decide (|c.2 - listMax ((cellEVPairs board).map (fun c => c.2))| < 1/100))).Pairwise
        (fun a b => a.1 < b.1) :=
      (cellEVPairs_pairwise board).filter _
    have hlq_le : (((cellEVPairs board).filter
        (fun c => decide (|c.2 - listMax ((cellEVPairs board).map (fun c => c.2))| < 1/100))).filter
        (fun c => decide (getPositionPriority c.1 = q))).Pairwise
        (fun a b : ℕ × ℚ => decide (getPositionPriority b.1 ≤ getPositionPriority a.1)) := by
      apply List.pairwise_of_forall_mem_list
      intro a ha b hb
      have ha2 := of_decide_eq_true (List.mem_filter.mp ha).2
      have hb2 := of_decide_eq_true (List.mem_filter.mp hb).2
      simp [ha2, hb2]
    have hsub := List.sublist_mergeSort htrans htotal hlq_le (List.filter_sublist _)
    have hsf : (((cellEVPairs board).filter
          (fun c => decide (|c.2 - listMax ((cellEVPairs board).map (fun c => c.2))| < 1/100))).mergeSort
          (fun a b : ℕ × ℚ => decide (getPositionPriority b.1 ≤ getPositionPriority a.1))).filter
          (fun c => decide (getPositionPriority c.1 = q)) =
        (((cellEVPairs board).filter
          (fun c => decide (|c.2 - listMax ((cellEVPairs board).map (fun c => c.2))| < 1/100))).filter
          (fun c => decide (getPositionPriority c.1 = q))) := by
      have h1 := hsub.filter (fun c : ℕ × ℚ => decide (getPositionPriority c.1 = q))
      have h2 : (((cellEVPairs board).filter
            (fun c => decide (|c.2 - listMax ((cellEVPairs board).map (fun c => c.2))| < 1/100))).filter
            (fun c => decide (getPositionPriority c.1 = q))).filter
            (fun c => decide (getPositionPriority c.1 = q)) =
          ((cellEVPairs board).filter
            (fun c => decide (|c.2 - listMax ((cellEVPairs board).map (fun c => c.2))| < 1/100))).filter
            (fun c => decide (getPositionPriority c.1 = q)) := by
        apply List.filter_eq_self.mpr
        intro a ha
        exact (List.mem_filter.mp ha).2
      rw [h2] at h1
      have h3 := (hperm.filter (fun c : ℕ × ℚ => decide (getPositionPriority c.1 = q))).length_eq
      exact (h1.eq_of_length h3.symm).symm
    have hcomm : ((((cellEVPairs board).filter
          (fun c => decide (|c.2 - listMax ((cellEVPairs board).map (fun c => c.2))| < 1/100))).mergeSort
          (fun a b : ℕ × ℚ => decide (getPositionPriority b.1 ≤ getPositionPriority a.1))).map
          (fun c => c.1)).filter (fun p => decide (getPositionPriority p = q)) =
        ((((cellEVPairs board).filter
          (fun c => decide (|c.2 - listMax ((cellEVPairs board).map (fun c => c.2))| < 1/100))).mergeSort
          (fun a b : ℕ × ℚ => decide (getPositionPriority b.1 ≤ getPositionPriority a.1))).filter
          (fun c => decide (getPositionPriority c.1 = q))).map (fun c => c.1) := by
      rw [List.filter_map]
      rfl
    rw [hcomm, hsf]
    apply List.pairwise_map.mpr
    exact (hflpw.filter _).imp (fun h => le_of_lt h)

theorem claim4_witness :
    ((List.replicate 9 (none : Option ℤ)).length = 9 ∧
      ((List.replicate 9 (none : Option ℤ)).filterMap id).length < 4) ∧
    (findBestCellsToReveal (List.replicate 9 (none : Option ℤ))).bestCells.Pairwise
      (fun a b => getPositionPriority b ≤ getPositionPriority a) :=
  ⟨⟨by simp, by decide⟩,
    (claim4_best_cells (List.replicate 9 none) (by simp) (by decide)).2.2.1⟩
